import Mathlib

/-!
Factor-graph container (`gtsam/inference/FactorGraphUnordered-inst.h`).

A shallow embedding of the member functions of `FactorGraphUnordered<FACTOR>`
defined in `FactorGraphUnordered-inst.h`, and of the symbolic part of the
pose-graph initializer exercised by `gtsam/slam/tests/testInitializePose3.cpp`.

* `factors_` (a `std::vector<boost::shared_ptr<FACTOR>>`) is a `List` of
  `Option FACTOR`; `none` is the `NULL` pointer.
* The template parameter `FACTOR` is a type together with the two members the
  container calls on it: the key range `begin()..end()` and
  `equals(other, tol)`.
* Reading a vector out of range and dereferencing `NULL` are undefined in C++;
  the embedding makes both explicit as a `Fault`.
-/

namespace gtsam

/-- A variable identifier (`gtsam::Key`, an unsigned integer). -/
abbrev Key := Nat

/-- The members of the template parameter `FACTOR` used by the container:
`keys f` is the range `f.begin() .. f.end()`, `equals f g tol` is
`f.equals(g, tol)`. -/
structure FactorOps (FACTOR : Type) (Tol : Type) where
  keys : FACTOR → List Key
  equals : FACTOR → FACTOR → Tol → Bool

/-- A `sharedFactor` is a `boost::shared_ptr<FACTOR>`; `none` is `NULL`. -/
abbrev sharedFactor (FACTOR : Type) := Option FACTOR

/-- The container: its only data member is the vector `factors_`. -/
structure FactorGraphUnordered (FACTOR : Type) where
  factors_ : List (sharedFactor FACTOR)

/-- The two ways member code of the container could leave defined behaviour. -/
inductive Fault where
  | outOfRange
  | nullDereference
  deriving DecidableEq, Repr

/-- The read `v[i]` of a `std::vector`: defined only for `i < v.size()`. -/
def vectorAt {α : Type} (v : List α) (i : Nat) : Except Fault α :=
  match v[i]? with
  | some x => .ok x
  | none => .error Fault.outOfRange

/-- The dereference `*p` / `p->` of a shared pointer: defined only for `p != NULL`. -/
def deref {FACTOR : Type} (p : sharedFactor FACTOR) : Except Fault FACTOR :=
  match p with
  | some f => .ok f
  | none => .error Fault.nullDereference

namespace FactorGraphUnordered

variable {FACTOR Tol : Type}

/-- Modelled from the spec: `size()` is declared in `FactorGraphUnordered.h`,
which is absent; the spec gives it as the total slot count, nulls included. -/
def size (g : FactorGraphUnordered FACTOR) : Nat :=
  g.factors_.length

/-- Modelled from the spec: `push_back(factor)` is declared in
`FactorGraphUnordered.h`, which is absent; the spec gives it as an ordinary
append of one slot at the end. -/
def push_back (g : FactorGraphUnordered FACTOR) (factor : sharedFactor FACTOR) :
    FactorGraphUnordered FACTOR :=
  ⟨g.factors_ ++ [factor]⟩

/-- The body of the `for (size_t i = 0; i < factors_.size(); i++)` loop of
`equals`, lines 57-63: `equalsLoop .. n i` runs the `n` iterations that start at
index `i`. Falling out of the loop gives `return true` (line 64). -/
def equalsLoop (ops : FactorOps FACTOR Tol) (this fg : FactorGraphUnordered FACTOR)
    (tol : Tol) : Nat → Nat → Except Fault Bool
  | 0, _ => .ok true
  | n + 1, i => do
    let f1 ← vectorAt this.factors_ i
    let f2 ← vectorAt fg.factors_ i
    if f1.isNone && f2.isNone then
      equalsLoop ops this fg tol n (i + 1)
    else if f1.isNone || f2.isNone then
      .ok false
    else do
      let a ← deref f1
      let b ← deref f2
      if !ops.equals a b tol then
        .ok false
      else
        equalsLoop ops this fg tol n (i + 1)

/-- Lines 51-65, `FactorGraphUnordered::equals(const This& fg, double tol)`. -/
def equals (ops : FactorOps FACTOR Tol) (this fg : FactorGraphUnordered FACTOR)
    (tol : Tol) : Except Fault Bool :=
  if this.factors_.length ≠ fg.size then .ok false
  else equalsLoop ops this fg tol this.factors_.length 0

/-- Lines 87-93, `nrFactors()`: the counter `size_` is stepped once for each
non-null slot. -/
def nrFactors (this : FactorGraphUnordered FACTOR) : Nat :=
  this.factors_.foldl (fun size_ factor => if factor.isSome then size_ + 1 else size_) 0

end FactorGraphUnordered

/-! ### `FastSet<Key>` -/

/-- Modelled from the spec: `FastSet<Key>` (`gtsam/base/FastSet.h`, absent) is
the ordered set of keys `keys()` returns, "deduplicated, insertion order
irrelevant". It is kept as the increasing list of its elements. -/
abbrev FastSet := List Key

namespace FastSet

/-- Insertion of one key into an ordered set: a key already present is not
inserted again. -/
def insert (k : Key) : FastSet → FastSet
  | [] => [k]
  | x :: xs =>
    if k < x then k :: x :: xs
    else if k = x then x :: xs
    else x :: insert k xs

/-- The range insertion `s.insert(first, last)`: every key of the range is
inserted, in turn. -/
def insertRange (s : FastSet) (range : List Key) : FastSet :=
  range.foldl (fun acc k => insert k acc) s

end FastSet

namespace FactorGraphUnordered

variable {FACTOR Tol : Type}

/-- Lines 96-103, `keys()`: starting from the empty set, every non-null factor
inserts its key range. -/
def keys (ops : FactorOps FACTOR Tol) (this : FactorGraphUnordered FACTOR) : FastSet :=
  this.factors_.foldl
    (fun allKeys factor =>
      match factor with
      | some f => FastSet.insertRange allKeys (ops.keys f)
      | none => allKeys)
    []

end FactorGraphUnordered

/-! ### Clique forests and their depth-first traversal -/

/-- Modelled from the spec: a clique of a Bayes tree (the class `CLIQUE`, absent)
"has a conditional factor and zero or more child cliques". The source reads the
member `conditional_` (line 71). -/
inductive Clique (FACTOR : Type) where
  | mk (conditional_ : sharedFactor FACTOR) (children : List (Clique FACTOR))

namespace Clique

variable {FACTOR : Type}

/-- The member `conditional_` of a clique. -/
def conditional_ : Clique FACTOR → sharedFactor FACTOR
  | mk c _ => c

/-- The member `children` of a clique. -/
def children : Clique FACTOR → List (Clique FACTOR)
  | mk _ ch => ch

end Clique

/-- Modelled from the spec: a Bayes tree (`BayesTreeUnordered<CLIQUE>`, absent)
is a rooted forest of cliques. -/
structure BayesTreeUnordered (FACTOR : Type) where
  roots : List (Clique FACTOR)

namespace treeTraversal

variable {FACTOR DATA STATE : Type}

mutual
/-- Modelled from the spec: the visit of one clique by `DepthFirstForest`
(`gtsam/base/treeTraversal-inst.h`, absent). The per-clique callback is invoked
on the clique with the data of its parent, and what it returns is the data handed
to the clique's children; the whole subtree of the clique is then walked.
`STATE` is what the callback mutates. -/
def DepthFirstNode (visitorPre : Clique FACTOR → DATA → STATE → DATA × STATE) :
    Clique FACTOR → DATA → STATE → STATE
  | .mk c ch, parentData, s =>
    let r := visitorPre (.mk c ch) parentData s
    DepthFirstChildren visitorPre ch r.1 r.2
/-- Modelled from the spec: the walk over a list of sibling subtrees; each full
subtree completes before the next sibling starts. -/
def DepthFirstChildren (visitorPre : Clique FACTOR → DATA → STATE → DATA × STATE) :
    List (Clique FACTOR) → DATA → STATE → STATE
  | [], _, s => s
  | c :: cs, d, s => DepthFirstChildren visitorPre cs d (DepthFirstNode visitorPre c d s)
end

/-- Modelled from the spec: `DepthFirstForest(forest, rootData, visitorPre)`
(`gtsam/base/treeTraversal-inst.h`, absent), the "pure depth-first forest walk"
over the roots of the forest. -/
def DepthFirstForest (forest : BayesTreeUnordered FACTOR) (rootData : DATA)
    (visitorPre : Clique FACTOR → DATA → STATE → DATA × STATE) (s : STATE) : STATE :=
  DepthFirstChildren visitorPre forest.roots rootData s

end treeTraversal

namespace FactorGraphUnordered

variable {FACTOR : Type}

/-- Lines 69-73, `_pushClique(fg, clique)`: `fg->push_back(clique->conditional_)`
and `return 0`. The bound callback ignores the traversal data it is passed. -/
def _pushClique (clique : Clique FACTOR) (_data : Int) (fg : FactorGraphUnordered FACTOR) :
    Int × FactorGraphUnordered FACTOR :=
  (0, fg.push_back clique.conditional_)

/-- Lines 77-84, `push_back_bayesTree(bayesTree)`: `int data = 0` and the
depth-first walk with `_pushClique` bound to `this`. -/
def push_back_bayesTree (this : FactorGraphUnordered FACTOR)
    (bayesTree : BayesTreeUnordered FACTOR) : FactorGraphUnordered FACTOR :=
  let data : Int := 0
  treeTraversal.DepthFirstForest bayesTree data _pushClique this

end FactorGraphUnordered

/-! ### What the claims say about a clique forest, in the spec's own terms -/

namespace Clique

variable {FACTOR : Type}

mutual
/-- The number of cliques of the subtree rooted at a clique. -/
def numCliques : Clique FACTOR → Nat
  | mk _ ch => 1 + numCliquesList ch
/-- The number of cliques of a list of subtrees. -/
def numCliquesList : List (Clique FACTOR) → Nat
  | [] => 0
  | c :: cs => numCliques c + numCliquesList cs
end

mutual
/-- The cliques of the subtree rooted at a clique, in depth-first order: the
clique itself, then the whole subtree of each child in turn. -/
def subtree : Clique FACTOR → List (Clique FACTOR)
  | mk c ch => mk c ch :: subtreeList ch
/-- The cliques of a list of sibling subtrees, one whole subtree after another. -/
def subtreeList : List (Clique FACTOR) → List (Clique FACTOR)
  | [] => []
  | c :: cs => subtree c ++ subtreeList cs
end

end Clique

/-- Being a clique of the forest with the given roots: a root is one, and so is
every child of one. -/
inductive IsCliqueOf {FACTOR : Type} (roots : List (Clique FACTOR)) : Clique FACTOR → Prop where
  | root (c : Clique FACTOR) : c ∈ roots → IsCliqueOf roots c
  | child (p c : Clique FACTOR) : IsCliqueOf roots p → c ∈ p.children → IsCliqueOf roots c

namespace BayesTreeUnordered

variable {FACTOR : Type}

/-- The number of cliques of a forest. -/
def numCliques (t : BayesTreeUnordered FACTOR) : Nat :=
  Clique.numCliquesList t.roots

/-- The cliques of a forest in depth-first order. -/
def cliques (t : BayesTreeUnordered FACTOR) : List (Clique FACTOR) :=
  Clique.subtreeList t.roots

end BayesTreeUnordered

/-! ### The rotation-only graph and its adjacency index

`gtsam/slam/InitializePose3.cpp` is absent; `testInitializePose3.cpp` calls its
functions `buildPose3graph` and `createSymbolicGraph`. Poses and rotations are
left abstract, and noise models, which play no part in the index, are left out. -/

/-- Modelled from the spec: a factor of the input pose graph is a between-pose
constraint binding two keys to a measured relative pose, a prior-pose constraint
anchoring one key, or of some other type (`InitializePose3.cpp` is absent). -/
inductive PoseFactor (POSE : Type) where
  | between (key1 key2 : Key) (measured : POSE)
  | prior (key : Key) (prior : POSE)
  | other

/-- Modelled from the spec: an edge of the rotation-only graph, carrying the two
keys it connects and the measured relative rotation. -/
structure RotationEdge (ROT : Type) where
  key1 : Key
  key2 : Key
  measured : ROT

/-- Modelled from the spec: `buildPose3graph` (`InitializePose3.cpp`, absent).
Each between-pose factor is replaced by an edge carrying only the rotation
component of its measurement, each prior-pose factor by an edge connecting its key
to the anchor key, and a factor of another type is rejected as malformed input
(`none`). The graph is given by its factors in insertion order. -/
def buildPose3graph {POSE ROT : Type} (keyAnchor : Key) (rotation : POSE → ROT) :
    List (PoseFactor POSE) → Option (List (RotationEdge ROT))
  | [] => some []
  | PoseFactor.between key1 key2 measured :: rest =>
    (buildPose3graph keyAnchor rotation rest).map
      (fun edges => ⟨key1, key2, rotation measured⟩ :: edges)
  | PoseFactor.prior key prior :: rest =>
    (buildPose3graph keyAnchor rotation rest).map
      (fun edges => ⟨keyAnchor, key, rotation prior⟩ :: edges)
  | PoseFactor.other :: _ => none

/-- Modelled from the spec: the adjacency map (`KeyVectorMap`, absent), from a key
to the ordered list of the edge indices incident to it, kept as a list of
entries. -/
abbrev KeyVectorMap := List (Key × List Nat)

/-- The lookup of the entry of a key in the adjacency map. -/
def KeyVectorMap.find (adj : KeyVectorMap) (k : Key) : Option (List Nat) :=
  match adj with
  | [] => none
  | (k', ids) :: rest => if k' = k then some ids else KeyVectorMap.find rest k

/-- Modelled from the spec: an endpoint `k` of the edge `factorId` "gets the edge
index appended to its list"; a key without an entry gets one. -/
def KeyVectorMap.append (adj : KeyVectorMap) (k : Key) (factorId : Nat) : KeyVectorMap :=
  match adj with
  | [] => [(k, [factorId])]
  | (k', ids) :: rest =>
    if k' = k then (k', ids ++ [factorId]) :: rest
    else (k', ids) :: KeyVectorMap.append rest k factorId

/-- The two maps `createSymbolicGraph` fills: the adjacency map and the map from
edge index to the stored relative rotation. -/
structure SymbolicGraph (ROT : Type) where
  adjEdgesMap : KeyVectorMap
  factorId2RotMap : List (Nat × ROT)

/-- Modelled from the spec: the pass of `createSymbolicGraph` over the edges in
insertion order, `factorId` being the index of the next edge: the edge's rotation
is stored under its index and the index is appended to the lists of both of its
endpoints. -/
def createSymbolicGraphFrom {ROT : Type} :
    List (RotationEdge ROT) → Nat → SymbolicGraph ROT → SymbolicGraph ROT
  | [], _, g => g
  | e :: rest, factorId, g =>
    createSymbolicGraphFrom rest (factorId + 1)
      ⟨(g.adjEdgesMap.append e.key1 factorId).append e.key2 factorId,
        g.factorId2RotMap ++ [(factorId, e.measured)]⟩

/-- Modelled from the spec: `createSymbolicGraph(adjEdgesMap, factorId2RotMap,
pose3Graph)` (`InitializePose3.cpp`, absent), started on empty maps. -/
def createSymbolicGraph {ROT : Type} (pose3Graph : List (RotationEdge ROT)) :
    SymbolicGraph ROT :=
  createSymbolicGraphFrom pose3Graph 0 ⟨[], []⟩

/-- The graph `simple::graph()` of `testInitializePose3.cpp`, lines 63-72, with
the keys `x0 .. x3` written `0 .. 3`: five between-factors and one prior on `x0`.
The measured poses are parameters. -/
def simpleGraph {POSE : Type} (m01 m12 m23 m20 m03 p0 : POSE) : List (PoseFactor POSE) :=
  [PoseFactor.between 0 1 m01, PoseFactor.between 1 2 m12, PoseFactor.between 2 3 m23,
    PoseFactor.between 2 0 m20, PoseFactor.between 0 3 m03, PoseFactor.prior 0 p0]

/-- The key of the anchor, standing for `symbol('Z', 9999999)` (line 174). -/
def keyAnchor : Key := 9999999

/-- The edge indices incident to the key `k`, the first edge having index `start`:
each edge contributes its index once for each of its endpoints that is `k`. -/
def incidentIds {ROT : Type} (k : Key) : List (RotationEdge ROT) → Nat → List Nat
  | [], _ => []
  | e :: rest, start =>
    (if e.key1 = k then [start] else []) ++ (if e.key2 = k then [start] else []) ++
      incidentIds k rest (start + 1)

/-- A small forest for examples: a root with conditional 1 whose children are a
clique 2 (with one child 4, whose conditional is null) and a leaf 3, and a second
root 5. -/
def exampleForest : BayesTreeUnordered Nat :=
  ⟨[Clique.mk (some 1) [Clique.mk (some 2) [Clique.mk none []], Clique.mk (some 3) []],
    Clique.mk (some 5) []]⟩

/-- Slot `j` of `g` and slot `j` of `h` agree: both exist and either both are
null or both hold factors that the factor predicate accepts. -/
def SlotsAgree {FACTOR Tol : Type} (ops : FactorOps FACTOR Tol) (tol : Tol)
    (g h : FactorGraphUnordered FACTOR) (j : Nat) : Prop :=
  (g.factors_[j]? = some none ∧ h.factors_[j]? = some none) ∨
    ∃ a b, g.factors_[j]? = some (some a) ∧ h.factors_[j]? = some (some b) ∧
      ops.equals a b tol = true

/-- The sequence got from `A` by exchanging its entries `j` and `j + 1` (and `A`
itself when it has no entry `j + 1`). -/
def swapAdjacent {α : Type} (A : List α) (j : Nat) : List α :=
  match A[j]?, A[j + 1]? with
  | some x, some y => (A.set j y).set (j + 1) x
  | _, _ => A

/-- The container built from a sequence of non-null factors. -/
def FactorGraphUnordered.ofFactors {FACTOR : Type} (A : List FACTOR) :
    FactorGraphUnordered FACTOR :=
  ⟨A.map some⟩

/-- A concrete factor type for examples: the keys it touches and one measured
number. -/
structure ValueFactor where
  keys_ : List Key
  value : Int
  deriving DecidableEq, Repr

/-- A factor predicate that compares the measured numbers within the tolerance
and does not look at the keys. -/
def valueOnlyOps : FactorOps ValueFactor Nat where
  keys := fun f => f.keys_
  equals := fun f g tol => decide ((f.value - g.value).natAbs ≤ tol)

/-- A factor predicate that compares the keys and the measured numbers within the
tolerance. -/
def keyedOps : FactorOps ValueFactor Nat where
  keys := fun f => f.keys_
  equals := fun f g tol => decide (f.keys_ = g.keys_ ∧ (f.value - g.value).natAbs ≤ tol)

/-- The five factors of the example graph of `testInitializePose3.cpp`, by the
keys they touch: 0-1, 1-2, 2-3, 2-0, 0-3. -/
def exampleFactors : List ValueFactor :=
  [⟨[0, 1], 0⟩, ⟨[1, 2], 0⟩, ⟨[2, 3], 0⟩, ⟨[2, 0], 0⟩, ⟨[0, 3], 0⟩]

/-- Two factors with different keys and the same measured number. -/
def swapExample : List ValueFactor :=
  [⟨[0, 1], 5⟩, ⟨[1, 2], 5⟩]

mutual
/-- The number of cliques of the subtree rooted at a clique whose conditional is
non-null. -/
def Clique.numConditionals {FACTOR : Type} : Clique FACTOR → Nat
  | Clique.mk c ch => (if c.isSome then 1 else 0) + Clique.numConditionalsList ch
/-- The number of cliques of a list of subtrees whose conditional is non-null. -/
def Clique.numConditionalsList {FACTOR : Type} : List (Clique FACTOR) → Nat
  | [] => 0
  | c :: cs => Clique.numConditionals c + Clique.numConditionalsList cs
end

/-- The number of cliques of a forest whose conditional is non-null. -/
def BayesTreeUnordered.numConditionals {FACTOR : Type} (t : BayesTreeUnordered FACTOR) : Nat :=
  Clique.numConditionalsList t.roots

/-! ## Theorems -/

section EqualsLemmas

open FactorGraphUnordered

variable {FACTOR Tol : Type}

theorem vectorAt_of_lt {α : Type} (v : List α) (i : Nat) (h : i < v.length) :
    vectorAt v i = .ok v[i] := by
  simp [vectorAt, List.getElem?_eq_getElem h]

theorem equalsLoop_spec (ops : FactorOps FACTOR Tol) (g h : FactorGraphUnordered FACTOR)
    (tol : Tol) (hlen : g.factors_.length = h.factors_.length) :
    ∀ n i, i + n = g.factors_.length →
      ∃ b, equalsLoop ops g h tol n i = .ok b ∧
        (b = true ↔ ∀ j, i ≤ j → j < i + n → SlotsAgree ops tol g h j) := by
  intro n
  induction n with
  | zero =>
    intro i _
    refine ⟨true, rfl, ?_⟩
    simp
    intro j h1 h2
    omega
  | succ n ih =>
    intro i hi
    have hig : i < g.factors_.length := by omega
    have hih : i < h.factors_.length := by omega
    obtain ⟨b, hb, hbspec⟩ := ih (i + 1) (by omega)
    have hg : g.factors_[i]? = some g.factors_[i] := List.getElem?_eq_getElem hig
    have hh : h.factors_[i]? = some h.factors_[i] := List.getElem?_eq_getElem hih
    have step : ∀ P : Nat → Prop, (∀ j, i ≤ j → j < i + (n + 1) → P j) ↔
        (P i ∧ ∀ j, i + 1 ≤ j → j < i + 1 + n → P j) := by
      intro P
      constructor
      · intro hP
        exact ⟨hP i (le_refl _) (by omega), fun j h1 h2 => hP j (by omega) (by omega)⟩
      · rintro ⟨h0, hP⟩ j h1 h2
        rcases Nat.eq_or_lt_of_le h1 with h3 | h3
        · subst h3; exact h0
        · exact hP j h3 (by omega)
    rw [equalsLoop, vectorAt_of_lt _ _ hig, vectorAt_of_lt _ _ hih]
    cases hf1 : g.factors_[i] with
    | none =>
      cases hf2 : h.factors_[i] with
      | none =>
        refine ⟨b, by simpa using hb, ?_⟩
        rw [step, ← hbspec]
        simp [SlotsAgree, hg, hh, hf1, hf2]
      | some y =>
        refine ⟨false, by simp [bind, Except.bind], ?_⟩
        rw [step]
        simp [SlotsAgree, hg, hh, hf1, hf2]
    | some x =>
      cases hf2 : h.factors_[i] with
      | none =>
        refine ⟨false, by simp [bind, Except.bind], ?_⟩
        rw [step]
        simp [SlotsAgree, hg, hh, hf1, hf2]
      | some y =>
        cases he : ops.equals x y tol with
        | false =>
          refine ⟨false, by simp [bind, Except.bind, deref, he], ?_⟩
          rw [step]
          simp [SlotsAgree, hg, hh, hf1, hf2, he]
        | true =>
          refine ⟨b, by simpa [bind, Except.bind, deref, he] using hb, ?_⟩
          rw [step, ← hbspec]
          simp [SlotsAgree, hg, hh, hf1, hf2, he]

end EqualsLemmas

section EqualsTheorems

open FactorGraphUnordered

variable {FACTOR Tol : Type}

theorem equals_total (ops : FactorOps FACTOR Tol) (g h : FactorGraphUnordered FACTOR)
    (tol : Tol) :
    ∃ b, equals ops g h tol = .ok b ∧
      (b = true ↔ g.size = h.size ∧ ∀ i, i < g.size → SlotsAgree ops tol g h i) := by
  unfold equals
  by_cases hlen : g.factors_.length = h.size
  · obtain ⟨b, hb, hspec⟩ := equalsLoop_spec ops g h tol hlen g.factors_.length 0 (by simp)
    refine ⟨b, by simpa [hlen] using hb, ?_⟩
    rw [hspec]
    simp [size] at hlen ⊢
    exact fun _ => hlen
  · refine ⟨false, by simp [hlen], ?_⟩
    simp [size] at hlen ⊢
    intro h1
    exact absurd h1 hlen

theorem slotsAgree_ofFactors (ops : FactorOps FACTOR Tol) (tol : Tol) (A B : List FACTOR)
    (i : Nat) :
    SlotsAgree ops tol (ofFactors A) (ofFactors B) i ↔
      ∃ a b, A[i]? = some a ∧ B[i]? = some b ∧ ops.equals a b tol = true := by
  simp [SlotsAgree, ofFactors, List.getElem?_map]

/-- C1: `G.equals(H, tol)` always returns, and returns true exactly when `G` and `H`
have the same slot count and at every index the two slots are both null or both
non-null with the factor predicate accepting the pair at `tol`; in particular the
containers built from two equally long sequences of non-null factors that are
element-wise accepted by the factor predicate are equal. -/
theorem equals_iff_slots_agree (ops : FactorOps FACTOR Tol) (tol : Tol) :
    (∀ G H : FactorGraphUnordered FACTOR,
      (equals ops G H tol = .ok true ∨ equals ops G H tol = .ok false) ∧
      (equals ops G H tol = .ok true ↔
        G.size = H.size ∧
          ∀ i, i < G.size →
            (G.factors_[i]? = some none ∧ H.factors_[i]? = some none) ∨
              ∃ a b, G.factors_[i]? = some (some a) ∧ H.factors_[i]? = some (some b) ∧
                ops.equals a b tol = true)) ∧
    (∀ A B : List FACTOR, A.length = B.length →
      (∀ (i : Nat) (a b : FACTOR), A[i]? = some a → B[i]? = some b →
        ops.equals a b tol = true) →
      equals ops (ofFactors A) (ofFactors B) tol = .ok true) := by
  have key : ∀ G H : FactorGraphUnordered FACTOR,
      equals ops G H tol = .ok true ↔
        G.size = H.size ∧ ∀ i, i < G.size → SlotsAgree ops tol G H i := by
    intro G H
    obtain ⟨b, hb, hspec⟩ := equals_total ops G H tol
    rw [hb, ← hspec]
    simp
  refine ⟨fun G H => ⟨?_, key G H⟩, ?_⟩
  · obtain ⟨b, hb, _⟩ := equals_total ops G H tol
    cases b
    · exact Or.inr hb
    · exact Or.inl hb
  · intro A B hlen hAB
    rw [key]
    refine ⟨by simp [size, ofFactors, hlen], ?_⟩
    intro i hi
    rw [slotsAgree_ofFactors]
    have hiA : i < A.length := by simpa [size, ofFactors] using hi
    have hiB : i < B.length := by omega
    refine ⟨A[i], B[i], List.getElem?_eq_getElem hiA, List.getElem?_eq_getElem hiB, ?_⟩
    exact hAB i _ _ (List.getElem?_eq_getElem hiA) (List.getElem?_eq_getElem hiB)

theorem swapAdjacent_getElem? {α : Type} (A : List α) (j : Nat) (x y : α)
    (hx : A[j]? = some x) (hy : A[j + 1]? = some y) :
    (swapAdjacent A j)[j]? = some y ∧ (swapAdjacent A j).length = A.length := by
  have hj : j < A.length := by
    by_contra hcon
    rw [List.getElem?_eq_none (by omega)] at hx
    cases hx
  simp [swapAdjacent, hx, hy, List.getElem?_set, hj]

/-- C2, as the code has it: when the factor predicate at `tol` accepts only pairs
of factors with the same keys, exchanging two adjacent factors of `A` that have
different keys makes the container unequal to the one built from `B`, for `A` and
`B` equally long and element-wise accepted by the predicate. -/
theorem equals_swap_adjacent_false (ops : FactorOps FACTOR Tol) (tol : Tol)
    (A B : List FACTOR) (j : Nat)
    (hkeys : ∀ a b, ops.equals a b tol = true → ops.keys a = ops.keys b)
    (hlen : A.length = B.length)
    (hAB : ∀ (i : Nat) (a b : FACTOR), A[i]? = some a → B[i]? = some b →
      ops.equals a b tol = true)
    (hj : j + 1 < A.length)
    (hdiff : ∀ x y, A[j]? = some x → A[j + 1]? = some y → ops.keys x ≠ ops.keys y) :
    equals ops (ofFactors (swapAdjacent A j)) (ofFactors B) tol = .ok false := by
  obtain ⟨r, hr, hspec⟩ := equals_total ops (ofFactors (swapAdjacent A j)) (ofFactors B) tol
  have hx : A[j]? = some A[j] := List.getElem?_eq_getElem (by omega)
  have hy : A[j + 1]? = some A[j + 1] := List.getElem?_eq_getElem hj
  have hb : B[j]? = some B[j] := List.getElem?_eq_getElem (by omega)
  obtain ⟨hs, hl⟩ := swapAdjacent_getElem? A j _ _ hx hy
  cases r with
  | false => exact hr
  | true =>
    exfalso
    obtain ⟨_, hall⟩ := hspec.mp rfl
    have hagree := hall j (by simp [size, ofFactors, hl]; omega)
    rw [slotsAgree_ofFactors] at hagree
    obtain ⟨a, b, ha, hb2, hab⟩ := hagree
    rw [hs] at ha
    rw [hb] at hb2
    cases ha
    cases hb2
    have h1 := hkeys _ _ hab
    have h2 := hkeys _ _ (hAB j _ _ hx hb)
    exact hdiff _ _ hx hy (h2.trans h1.symm)

/-- Witness for C2 as amended: with the predicate that compares keys and values,
exchanging the first two factors of the example graph makes it unequal to itself. -/
theorem equals_swap_adjacent_false_witness :
    equals keyedOps (ofFactors (swapAdjacent exampleFactors 0)) (ofFactors exampleFactors) 0 =
      .ok false :=
  equals_swap_adjacent_false keyedOps 0 exampleFactors exampleFactors 0
    (by
      intro a b hab
      simp only [keyedOps, decide_eq_true_eq] at hab
      exact hab.1)
    rfl
    (by
      intro i a b ha hb
      rw [ha] at hb
      cases hb
      simp [keyedOps])
    (by decide)
    (by
      intro x y hx hy
      simp [exampleFactors] at hx hy
      subst hx
      subst hy
      simp [keyedOps])

/-- C2 as stated fails: for a factor predicate that does not look at the keys,
the two factors of `swapExample` have different keys, the sequence is element-wise
accepted against itself at tolerance 0, and after exchanging the two factors the
container still equals the one built from the unchanged sequence. -/
theorem equals_swap_counterexample :
    swapExample.length = swapExample.length ∧
    (∀ (i : Nat) (a b : ValueFactor), swapExample[i]? = some a → swapExample[i]? = some b →
      valueOnlyOps.equals a b 0 = true) ∧
    (∀ x y, swapExample[0]? = some x → swapExample[0 + 1]? = some y →
      valueOnlyOps.keys x ≠ valueOnlyOps.keys y) ∧
    equals valueOnlyOps (ofFactors (swapAdjacent swapExample 0)) (ofFactors swapExample) 0 =
      .ok true := by
  refine ⟨rfl, ?_, ?_, by rfl⟩
  · intro i a b ha hb
    rw [ha] at hb
    cases hb
    simp [valueOnlyOps]
  · intro x y hx hy
    simp [swapExample] at hx hy
    subst hx
    subst hy
    simp [valueOnlyOps]

/-- C7: a structural mismatch makes `equals` return false and `equals` never
leaves defined behaviour: it always returns a boolean (no vector is read out of
range and no null pointer is dereferenced, which are the two faults of the
embedding); it returns false when the slot counts differ; and it returns false
when at some index one slot is null and the other is not, whatever the other
slots hold. -/
theorem equals_structural_mismatch (ops : FactorOps FACTOR Tol) (tol : Tol)
    (G H : FactorGraphUnordered FACTOR) :
    (∃ b, equals ops G H tol = .ok b) ∧
    (G.size ≠ H.size → equals ops G H tol = .ok false) ∧
    (∀ i : Nat,
      ((G.factors_[i]? = some none ∧ ∃ b, H.factors_[i]? = some (some b)) ∨
        ((∃ a, G.factors_[i]? = some (some a)) ∧ H.factors_[i]? = some none)) →
      equals ops G H tol = .ok false) := by
  obtain ⟨r, hr, hspec⟩ := equals_total ops G H tol
  refine ⟨⟨r, hr⟩, ?_, ?_⟩
  · intro hne
    cases r with
    | false => exact hr
    | true => exact absurd (hspec.mp rfl).1 hne
  · intro i hi
    cases r with
    | false => exact hr
    | true =>
      exfalso
      obtain ⟨_, hall⟩ := hspec.mp rfl
      have hlt : i < G.size := by
        by_contra hcon
        have hnone : G.factors_[i]? = none := List.getElem?_eq_none (by simpa [size] using hcon)
        rcases hi with ⟨h1, _⟩ | ⟨⟨a, h1⟩, _⟩ <;> rw [hnone] at h1 <;> cases h1
      rcases hall i hlt with ⟨h1, h2⟩ | ⟨a, b, h1, h2, _⟩
      · rcases hi with ⟨_, b, h4⟩ | ⟨⟨a, h3⟩, _⟩
        · rw [h2] at h4; cases h4
        · rw [h1] at h3; cases h3
      · rcases hi with ⟨h3, _⟩ | ⟨_, h4⟩
        · rw [h1] at h3; cases h3
        · rw [h2] at h4; cases h4

/-- Witness for C7: a null slot against a non-null slot at index 0, with the
second slots equal. -/
theorem equals_structural_mismatch_witness :
    equals keyedOps ⟨[none, some ⟨[0, 1], 0⟩]⟩ ⟨[some ⟨[0, 1], 0⟩, some ⟨[0, 1], 0⟩]⟩ 0 =
      .ok false :=
  (equals_structural_mismatch keyedOps 0 ⟨[none, some ⟨[0, 1], 0⟩]⟩
    ⟨[some ⟨[0, 1], 0⟩, some ⟨[0, 1], 0⟩]⟩).2.2 0 (Or.inl ⟨rfl, ⟨_, rfl⟩⟩)

/-- Two evaluations of `equals`: the example graph equals itself, and does not
equal itself with a null slot added at the end. -/
theorem equals_example :
    equals keyedOps (ofFactors exampleFactors) (ofFactors exampleFactors) 0 = .ok true ∧
    equals keyedOps (ofFactors exampleFactors) ⟨exampleFactors.map some ++ [none]⟩ 0 =
      .ok false := by
  constructor <;> rfl

end EqualsTheorems

section CountTheorems

open FactorGraphUnordered

variable {FACTOR : Type}

theorem nrFactors_foldl (l : List (sharedFactor FACTOR)) (acc : Nat) :
    l.foldl (fun size_ factor => if factor.isSome then size_ + 1 else size_) acc =
      acc + (l.filter Option.isSome).length := by
  induction l generalizing acc with
  | nil => simp
  | cons x xs ih =>
    rw [List.foldl_cons, ih]
    cases x
    · simp
    · simp; omega

/-- C6: `size()` is the number of slots, null slots included, and `nrFactors()`
is the number of slots that are non-null. -/
theorem size_and_nrFactors (G : FactorGraphUnordered FACTOR) :
    G.size = G.factors_.length ∧
    G.nrFactors = (G.factors_.filter Option.isSome).length := by
  refine ⟨rfl, ?_⟩
  simp [nrFactors, nrFactors_foldl]

end CountTheorems

section KeysTheorems

open FactorGraphUnordered

variable {FACTOR Tol : Type}

theorem FastSet.mem_insert (k x : Key) (s : FastSet) :
    x ∈ FastSet.insert k s ↔ x = k ∨ x ∈ s := by
  induction s with
  | nil => simp [FastSet.insert]
  | cons y ys ih =>
    unfold FastSet.insert
    split_ifs with h1 h2
    · simp
    · subst h2
      simp
    · simp only [List.mem_cons, ih]
      tauto

theorem FastSet.sorted_insert (k : Key) (s : FastSet) (hs : s.Sorted (· < ·)) :
    (FastSet.insert k s).Sorted (· < ·) := by
  induction s with
  | nil => simp [FastSet.insert]
  | cons y ys ih =>
    have hys := List.sorted_cons.mp hs
    unfold FastSet.insert
    split_ifs with h1 h2
    · refine List.sorted_cons.mpr ⟨?_, hs⟩
      intro b hb
      rcases List.mem_cons.mp hb with hb | hb
      · subst hb
        exact h1
      · exact lt_trans h1 (hys.1 b hb)
    · exact hs
    · refine List.sorted_cons.mpr ⟨?_, ih hys.2⟩
      intro b hb
      rcases (FastSet.mem_insert k b ys).mp hb with hb | hb
      · subst hb
        exact lt_of_le_of_ne (not_lt.mp h1) (Ne.symm h2)
      · exact hys.1 b hb

theorem FastSet.mem_insertRange (range : List Key) (s : FastSet) (x : Key) :
    x ∈ FastSet.insertRange s range ↔ x ∈ s ∨ x ∈ range := by
  induction range generalizing s with
  | nil => simp [FastSet.insertRange]
  | cons k ks ih =>
    have := ih (FastSet.insert k s)
    simp only [FastSet.insertRange, List.foldl_cons] at this ⊢
    rw [this, FastSet.mem_insert]
    simp only [List.mem_cons]
    tauto

theorem FastSet.sorted_insertRange (range : List Key) (s : FastSet)
    (hs : s.Sorted (· < ·)) : (FastSet.insertRange s range).Sorted (· < ·) := by
  induction range generalizing s with
  | nil => simpa [FastSet.insertRange] using hs
  | cons k ks ih =>
    have := ih (FastSet.insert k s) (FastSet.sorted_insert k s hs)
    simpa only [FastSet.insertRange, List.foldl_cons] using this

theorem keys_foldl_spec (ops : FactorOps FACTOR Tol) (l : List (sharedFactor FACTOR))
    (acc : FastSet) (hacc : acc.Sorted (· < ·)) :
    (∀ k, k ∈ l.foldl
        (fun allKeys factor =>
          match factor with
          | some f => FastSet.insertRange allKeys (ops.keys f)
          | none => allKeys) acc ↔
      k ∈ acc ∨ ∃ f, some f ∈ l ∧ k ∈ ops.keys f) ∧
    (l.foldl
        (fun allKeys factor =>
          match factor with
          | some f => FastSet.insertRange allKeys (ops.keys f)
          | none => allKeys) acc).Sorted (· < ·) := by
  induction l generalizing acc with
  | nil => simpa using hacc
  | cons x xs ih =>
    cases x with
    | none =>
      obtain ⟨h1, h2⟩ := ih acc hacc
      refine ⟨fun k => ?_, by simpa using h2⟩
      simp only [List.foldl_cons]
      rw [h1]
      simp
    | some f =>
      obtain ⟨h1, h2⟩ := ih (FastSet.insertRange acc (ops.keys f))
        (FastSet.sorted_insertRange _ _ hacc)
      refine ⟨fun k => ?_, by simpa using h2⟩
      simp only [List.foldl_cons]
      rw [h1, FastSet.mem_insertRange]
      simp only [List.mem_cons, Option.some.injEq]
      constructor
      · rintro ((h | h) | ⟨g, hg, hk⟩)
        · exact Or.inl h
        · exact Or.inr ⟨f, Or.inl rfl, h⟩
        · exact Or.inr ⟨g, Or.inr hg, hk⟩
      · rintro (h | ⟨g, hg | hg, hk⟩)
        · exact Or.inl (Or.inl h)
        · subst hg
          exact Or.inl (Or.inr hk)
        · exact Or.inr ⟨g, hg, hk⟩

/-- C3: a key is in `G.keys()` exactly when some non-null slot of `G` holds a
factor whose key range contains it; the result has no repeated key (it is strictly
increasing); and the container of the five example factors, touching 0-1, 1-2, 2-3,
2-0 and 0-3, has `keys()` exactly 0, 1, 2, 3. -/
theorem keys_mem_iff (ops : FactorOps FACTOR Tol) (G : FactorGraphUnordered FACTOR) :
    (∀ k, k ∈ keys ops G ↔ ∃ f, some f ∈ G.factors_ ∧ k ∈ ops.keys f) ∧
    (keys ops G).Nodup ∧
    (keys ops G).Sorted (· < ·) ∧
    keys keyedOps (ofFactors exampleFactors) = [0, 1, 2, 3] := by
  obtain ⟨h1, h2⟩ := keys_foldl_spec ops G.factors_ [] List.sorted_nil
  refine ⟨fun k => ?_, h2.nodup, h2, by decide⟩
  have := h1 k
  simpa [keys] using this

end KeysTheorems

section TreeTheorems

open FactorGraphUnordered treeTraversal

variable {FACTOR : Type}

mutual
theorem DepthFirstNode_pushClique (c : Clique FACTOR) (d : Int)
    (s : FactorGraphUnordered FACTOR) :
    (DepthFirstNode _pushClique c d s).factors_ =
      s.factors_ ++ (Clique.subtree c).map Clique.conditional_ := by
  cases c with
  | mk cond ch =>
    rw [DepthFirstNode, Clique.subtree, DepthFirstChildren_pushClique ch]
    simp [_pushClique, push_back, Clique.conditional_]
theorem DepthFirstChildren_pushClique (cs : List (Clique FACTOR)) (d : Int)
    (s : FactorGraphUnordered FACTOR) :
    (DepthFirstChildren _pushClique cs d s).factors_ =
      s.factors_ ++ (Clique.subtreeList cs).map Clique.conditional_ := by
  cases cs with
  | nil => simp [DepthFirstChildren, Clique.subtreeList]
  | cons c cs =>
    rw [DepthFirstChildren, DepthFirstChildren_pushClique cs, DepthFirstNode_pushClique c,
      Clique.subtreeList]
    simp
end

mutual
theorem Clique.length_subtree (c : Clique FACTOR) :
    (Clique.subtree c).length = Clique.numCliques c := by
  cases c with
  | mk cond ch =>
    rw [Clique.subtree, Clique.numCliques, List.length_cons, Clique.length_subtreeList ch]
    omega
theorem Clique.length_subtreeList (cs : List (Clique FACTOR)) :
    (Clique.subtreeList cs).length = Clique.numCliquesList cs := by
  cases cs with
  | nil => simp [Clique.subtreeList, Clique.numCliquesList]
  | cons c cs =>
    rw [Clique.subtreeList, Clique.numCliquesList, List.length_append,
      Clique.length_subtree c, Clique.length_subtreeList cs]
end

theorem Clique.subtreeList_eq_join (cs : List (Clique FACTOR)) :
    Clique.subtreeList cs = (cs.map Clique.subtree).flatten := by
  induction cs with
  | nil => simp [Clique.subtreeList]
  | cons c cs ih => simp [Clique.subtreeList, ih]

theorem Clique.mem_subtree_self (c : Clique FACTOR) : c ∈ Clique.subtree c := by
  cases c with
  | mk cond ch => simp [Clique.subtree]

theorem Clique.subtree_eq (c : Clique FACTOR) :
    Clique.subtree c = c :: (c.children.map Clique.subtree).flatten := by
  cases c with
  | mk cond ch => rw [Clique.subtree, Clique.subtreeList_eq_join, Clique.children]

mutual
theorem Clique.subtree_block (q p : Clique FACTOR) (hp : p ∈ Clique.subtree q) :
    ∃ pre post, Clique.subtree q = pre ++ Clique.subtree p ++ post := by
  cases q with
  | mk cond ch =>
    rw [Clique.subtree] at hp
    rcases List.mem_cons.mp hp with h | h
    · exact ⟨[], [], by simp [h]⟩
    · obtain ⟨pre, post, hpp⟩ := Clique.subtreeList_block ch p h
      refine ⟨Clique.mk cond ch :: pre, post, ?_⟩
      rw [Clique.subtree, hpp]
      simp
theorem Clique.subtreeList_block (cs : List (Clique FACTOR)) (p : Clique FACTOR)
    (hp : p ∈ Clique.subtreeList cs) :
    ∃ pre post, Clique.subtreeList cs = pre ++ Clique.subtree p ++ post := by
  cases cs with
  | nil => simp [Clique.subtreeList] at hp
  | cons c cs =>
    rw [Clique.subtreeList] at hp
    rcases List.mem_append.mp hp with h | h
    · obtain ⟨pre, post, hpp⟩ := Clique.subtree_block c p h
      refine ⟨pre, post ++ Clique.subtreeList cs, ?_⟩
      rw [Clique.subtreeList, hpp]
      simp
    · obtain ⟨pre, post, hpp⟩ := Clique.subtreeList_block cs p h
      refine ⟨Clique.subtree c ++ pre, post, ?_⟩
      rw [Clique.subtreeList, hpp]
      simp
end

mutual
theorem Clique.isCliqueOf_of_mem_subtree (q c : Clique FACTOR) (hc : c ∈ Clique.subtree q)
    (roots : List (Clique FACTOR)) (hq : IsCliqueOf roots q) : IsCliqueOf roots c := by
  cases q with
  | mk cond ch =>
    rw [Clique.subtree] at hc
    rcases List.mem_cons.mp hc with h | h
    · rw [h]; exact hq
    · exact Clique.isCliqueOf_of_mem_subtreeList ch c h roots
        (fun x hx => IsCliqueOf.child _ x hq hx)
theorem Clique.isCliqueOf_of_mem_subtreeList (cs : List (Clique FACTOR)) (c : Clique FACTOR)
    (hc : c ∈ Clique.subtreeList cs) (roots : List (Clique FACTOR))
    (hcs : ∀ x, x ∈ cs → IsCliqueOf roots x) : IsCliqueOf roots c := by
  cases cs with
  | nil => simp [Clique.subtreeList] at hc
  | cons x xs =>
    rw [Clique.subtreeList] at hc
    rcases List.mem_append.mp hc with h | h
    · exact Clique.isCliqueOf_of_mem_subtree x c h roots (hcs x (List.mem_cons_self _ _))
    · exact Clique.isCliqueOf_of_mem_subtreeList xs c h roots
        (fun y hy => hcs y (List.mem_cons_of_mem _ hy))
end

theorem Clique.mem_subtreeList_of_mem (cs : List (Clique FACTOR)) (c : Clique FACTOR)
    (hc : c ∈ cs) : c ∈ Clique.subtreeList cs := by
  rw [Clique.subtreeList_eq_join]
  exact List.mem_flatten.mpr ⟨Clique.subtree c, List.mem_map.mpr ⟨c, hc, rfl⟩,
    Clique.mem_subtree_self c⟩

theorem Clique.mem_subtreeList_iff (roots : List (Clique FACTOR)) (c : Clique FACTOR) :
    c ∈ Clique.subtreeList roots ↔ IsCliqueOf roots c := by
  constructor
  · intro h
    exact Clique.isCliqueOf_of_mem_subtreeList roots c h roots (fun x hx => IsCliqueOf.root x hx)
  · intro h
    induction h with
    | root c hc => exact Clique.mem_subtreeList_of_mem roots c hc
    | child p c _ hc ih =>
      obtain ⟨pre, post, hpp⟩ := Clique.subtreeList_block roots p ih
      rw [hpp, Clique.subtree_eq p, ← Clique.subtreeList_eq_join]
      have := Clique.mem_subtreeList_of_mem p.children c hc
      simp [this]

theorem push_back_bayesTree_factors (G : FactorGraphUnordered FACTOR)
    (T : BayesTreeUnordered FACTOR) :
    (G.push_back_bayesTree T).factors_ = G.factors_ ++ T.cliques.map Clique.conditional_ := by
  simp [push_back_bayesTree, DepthFirstForest, DepthFirstChildren_pushClique,
    BayesTreeUnordered.cliques]

/-- C4: after `G.push_back_bayesTree(T)` the slots appended to `G` are the
conditionals of the cliques of `T` in depth-first order. The listing `T.cliques`
holds every clique of `T` (and nothing else), has as many entries as `T` has
cliques, is the roots' subtrees one whole subtree after another, and shows every
clique of `T` immediately followed by the subtrees of its children, one whole
subtree after another in sibling order, which hold exactly its descendants. -/
theorem push_back_bayesTree_depth_first (G : FactorGraphUnordered FACTOR)
    (T : BayesTreeUnordered FACTOR) :
    (G.push_back_bayesTree T).factors_ = G.factors_ ++ T.cliques.map Clique.conditional_ ∧
    T.cliques.length = T.numCliques ∧
    (∀ c, c ∈ T.cliques ↔ IsCliqueOf T.roots c) ∧
    T.cliques = (T.roots.map Clique.subtree).flatten ∧
    (∀ c, IsCliqueOf T.roots c →
      ∃ pre post,
        T.cliques = pre ++ c :: (c.children.map Clique.subtree).flatten ++ post ∧
        ∀ p, p ∈ (c.children.map Clique.subtree).flatten ↔ IsCliqueOf c.children p) := by
  refine ⟨push_back_bayesTree_factors G T, Clique.length_subtreeList _,
    fun c => Clique.mem_subtreeList_iff _ c, Clique.subtreeList_eq_join _, ?_⟩
  intro c hc
  obtain ⟨pre, post, hpp⟩ :=
    Clique.subtreeList_block T.roots c ((Clique.mem_subtreeList_iff _ c).mpr hc)
  refine ⟨pre, post, ?_, ?_⟩
  · rw [BayesTreeUnordered.cliques, hpp, Clique.subtree_eq c]
  · intro p
    rw [← Clique.subtreeList_eq_join]
    exact Clique.mem_subtreeList_iff _ p

/-- C5: `push_back_bayesTree` only appends: a container of `n` slots has
`n + c` slots afterwards, `c` being the number of cliques of the forest (cliques
with a null conditional included), and its first `n` slots are the slots it had,
in the same order. -/
theorem push_back_bayesTree_only_appends (G : FactorGraphUnordered FACTOR)
    (T : BayesTreeUnordered FACTOR) :
    (G.push_back_bayesTree T).size = G.size + T.numCliques ∧
    (G.push_back_bayesTree T).factors_.take G.size = G.factors_ ∧
    (∀ i, i < G.size → (G.push_back_bayesTree T).factors_[i]? = G.factors_[i]?) := by
  have h := push_back_bayesTree_factors G T
  refine ⟨?_, ?_, ?_⟩
  · rw [size, h, List.length_append, List.length_map, BayesTreeUnordered.cliques,
      Clique.length_subtreeList]
    rfl
  · rw [h, size]
    simp
  · intro i hi
    rw [h]
    exact List.getElem?_append_left hi

/-- The example forest pushed onto a container of two slots: the two slots stay,
and the five conditionals follow in depth-first order, the null one included. -/
theorem push_back_bayesTree_example :
    (push_back_bayesTree ⟨[some 0, none]⟩ exampleForest).factors_ =
      [some 0, none, some 1, some 2, none, some 3, some 5] := by
  rfl

end TreeTheorems

section AdjacencyTheorems

variable {ROT : Type}

theorem KeyVectorMap.find_append (adj : KeyVectorMap) (k' k : Key) (factorId : Nat) :
    (adj.append k' factorId).find k =
      if k' = k then some ((adj.find k).getD [] ++ [factorId]) else adj.find k := by
  induction adj with
  | nil =>
    by_cases h : k' = k <;> simp [KeyVectorMap.append, KeyVectorMap.find, h]
  | cons entry rest ih =>
    obtain ⟨k0, ids⟩ := entry
    by_cases h0 : k0 = k' <;> by_cases h : k' = k <;> by_cases h1 : k0 = k <;>
      simp_all [KeyVectorMap.append, KeyVectorMap.find]

theorem KeyVectorMap.keys_append (adj : KeyVectorMap) (k : Key) (factorId : Nat) :
    (adj.append k factorId).map Prod.fst =
      if k ∈ adj.map Prod.fst then adj.map Prod.fst else adj.map Prod.fst ++ [k] := by
  induction adj with
  | nil => simp [KeyVectorMap.append]
  | cons entry rest ih =>
    obtain ⟨k0, ids⟩ := entry
    by_cases h0 : k0 = k
    · simp [KeyVectorMap.append, h0]
    · have h0' : ¬ k = k0 := fun h => h0 h.symm
      by_cases hm : k ∈ rest.map Prod.fst
      · simp only [KeyVectorMap.append, h0, if_false, List.map_cons, ih, hm, if_true,
          List.mem_cons, or_true]
      · simp only [KeyVectorMap.append, h0, if_false, List.map_cons, ih, hm,
          List.mem_cons, h0', or_self, List.cons_append]

theorem KeyVectorMap.nodup_append (adj : KeyVectorMap) (k : Key) (factorId : Nat)
    (h : (adj.map Prod.fst).Nodup) : ((adj.append k factorId).map Prod.fst).Nodup := by
  rw [KeyVectorMap.keys_append]
  split_ifs with hm
  · exact h
  · exact List.Nodup.append h (List.nodup_singleton k) (by simpa using hm)

theorem createSymbolicGraphFrom_nodup (g : List (RotationEdge ROT)) (start : Nat)
    (G : SymbolicGraph ROT) (h : (G.adjEdgesMap.map Prod.fst).Nodup) :
    ((createSymbolicGraphFrom g start G).adjEdgesMap.map Prod.fst).Nodup := by
  induction g generalizing start G with
  | nil => simpa [createSymbolicGraphFrom] using h
  | cons e rest ih =>
    rw [createSymbolicGraphFrom]
    apply ih
    exact KeyVectorMap.nodup_append _ _ _ (KeyVectorMap.nodup_append _ _ _ h)

theorem createSymbolicGraphFrom_find (g : List (RotationEdge ROT)) (start : Nat)
    (G : SymbolicGraph ROT) (k : Key) :
    (createSymbolicGraphFrom g start G).adjEdgesMap.find k =
      if incidentIds k g start = [] then G.adjEdgesMap.find k
      else some ((G.adjEdgesMap.find k).getD [] ++ incidentIds k g start) := by
  induction g generalizing start G with
  | nil => simp [createSymbolicGraphFrom, incidentIds]
  | cons e rest ih =>
    rw [createSymbolicGraphFrom, ih, incidentIds]
    simp only [KeyVectorMap.find_append]
    by_cases h1 : e.key1 = k <;> by_cases h2 : e.key2 = k <;>
      by_cases h3 : incidentIds k rest (start + 1) = [] <;> simp [h1, h2, h3]

theorem mem_incidentIds (k : Key) (g : List (RotationEdge ROT)) (start i : Nat) :
    i ∈ incidentIds k g start ↔
      start ≤ i ∧ ∃ e, g[i - start]? = some e ∧ (e.key1 = k ∨ e.key2 = k) := by
  induction g generalizing start with
  | nil => simp [incidentIds]
  | cons e rest ih =>
    rw [incidentIds]
    simp only [List.mem_append, ih]
    constructor
    · rintro ((h | h) | ⟨h, e', he', hk⟩)
      · by_cases h1 : e.key1 = k
        · simp only [h1, if_true, List.mem_singleton] at h
          subst h
          exact ⟨le_refl _, e, by simp, Or.inl h1⟩
        · simp [h1] at h
      · by_cases h2 : e.key2 = k
        · simp only [h2, if_true, List.mem_singleton] at h
          subst h
          exact ⟨le_refl _, e, by simp, Or.inr h2⟩
        · simp [h2] at h
      · refine ⟨by omega, e', ?_, hk⟩
        have : i - start = (i - (start + 1)) + 1 := by omega
        rw [this, List.getElem?_cons_succ]
        exact he'
    · rintro ⟨h, e', he', hk⟩
      rcases Nat.eq_or_lt_of_le h with h0 | h0
      · subst h0
        simp only [Nat.sub_self, List.getElem?_cons_zero, Option.some.injEq] at he'
        subst he'
        rcases hk with hk | hk
        · exact Or.inl (Or.inl (by simp [hk]))
        · exact Or.inl (Or.inr (by simp [hk]))
      · refine Or.inr ⟨by omega, e', ?_, hk⟩
        have : i - start = (i - (start + 1)) + 1 := by omega
        rw [this, List.getElem?_cons_succ] at he'
        exact he'

theorem sorted_incidentIds (k : Key) (g : List (RotationEdge ROT)) (start : Nat) :
    (incidentIds k g start).Sorted (· ≤ ·) ∧
      ((∀ e, e ∈ g → e.key1 ≠ e.key2) → (incidentIds k g start).Sorted (· < ·)) := by
  induction g generalizing start with
  | nil => simp [incidentIds]
  | cons e rest ih =>
    obtain ⟨ih1, ih2⟩ := ih (start + 1)
    have hge : ∀ i, i ∈ incidentIds k rest (start + 1) → start < i := by
      intro i hi
      have := ((mem_incidentIds k rest (start + 1) i).mp hi).1
      omega
    rw [incidentIds]
    constructor
    · have hge' : ∀ i, i ∈ incidentIds k rest (start + 1) → start ≤ i :=
        fun i hi => le_of_lt (hge i hi)
      by_cases h1 : e.key1 = k <;> by_cases h2 : e.key2 = k
      · simpa [h1, h2] using ⟨hge', ih1⟩
      · simpa [h1, h2] using ⟨hge', ih1⟩
      · simpa [h1, h2] using ⟨hge', ih1⟩
      · simpa [h1, h2] using ih1
    · intro hloop
      have hne : e.key1 ≠ e.key2 := hloop e (List.mem_cons_self _ _)
      have ih2' := ih2 (fun x hx => hloop x (List.mem_cons_of_mem _ hx))
      by_cases h1 : e.key1 = k <;> by_cases h2 : e.key2 = k
      · exact absurd (h1.trans h2.symm) hne
      · simpa [h1, h2] using ⟨hge, ih2'⟩
      · simpa [h1, h2] using ⟨hge, ih2'⟩
      · simpa [h1, h2] using ih2'

theorem createSymbolicGraph_find (g : List (RotationEdge ROT)) (k : Key) :
    (createSymbolicGraph g).adjEdgesMap.find k =
      if incidentIds k g 0 = [] then none else some (incidentIds k g 0) := by
  rw [createSymbolicGraph, createSymbolicGraphFrom_find]
  simp [KeyVectorMap.find]

/-- C8: `createSymbolicGraph` on a rotation-only graph `g` maps a key `k` to a
list that holds the index `i` exactly when edge `i` of `g` has `k` as an endpoint
(so every edge index is in the lists of both of its endpoints, and a key with no
incident edge has no entry); the list is in increasing order of edge index,
strictly when no edge joins a key to itself; no key has two entries. On the example
graph (five between-edges and one prior on `x0`, turned into an edge to the anchor)
the lists are `x0 -> [0,3,4,5]`, `x1 -> [0,1]`, `x2 -> [1,2,3]`, `x3 -> [2,4]`,
and the map has 5 entries, the anchor's included. -/
theorem createSymbolicGraph_adjacency {POSE : Type} (g : List (RotationEdge ROT))
    (rotation : POSE → ROT) (m01 m12 m23 m20 m03 p0 : POSE) :
    (∀ (k : Key) (i : Nat),
      (∃ ids, (createSymbolicGraph g).adjEdgesMap.find k = some ids ∧ i ∈ ids) ↔
        ∃ e, g[i]? = some e ∧ (e.key1 = k ∨ e.key2 = k)) ∧
    (∀ (i : Nat) (e : RotationEdge ROT), g[i]? = some e →
      (∃ ids, (createSymbolicGraph g).adjEdgesMap.find e.key1 = some ids ∧ i ∈ ids) ∧
      (∃ ids, (createSymbolicGraph g).adjEdgesMap.find e.key2 = some ids ∧ i ∈ ids)) ∧
    (∀ (k : Key) (ids : List Nat), (createSymbolicGraph g).adjEdgesMap.find k = some ids →
      ids ≠ [] ∧ ids.Sorted (· ≤ ·) ∧
        ((∀ e, e ∈ g → e.key1 ≠ e.key2) → ids.Sorted (· < ·))) ∧
    ((createSymbolicGraph g).adjEdgesMap.map Prod.fst).Nodup ∧
    (∃ edges : List (RotationEdge ROT),
      buildPose3graph keyAnchor rotation (simpleGraph m01 m12 m23 m20 m03 p0) = some edges ∧
      edges.length = 6 ∧
      (createSymbolicGraph edges).adjEdgesMap.find 0 = some [0, 3, 4, 5] ∧
      (createSymbolicGraph edges).adjEdgesMap.find 1 = some [0, 1] ∧
      (createSymbolicGraph edges).adjEdgesMap.find 2 = some [1, 2, 3] ∧
      (createSymbolicGraph edges).adjEdgesMap.find 3 = some [2, 4] ∧
      (createSymbolicGraph edges).adjEdgesMap.find keyAnchor = some [5] ∧
      (createSymbolicGraph edges).adjEdgesMap.length = 5) := by
  have hmem : ∀ (k : Key) (i : Nat),
      (∃ ids, (createSymbolicGraph g).adjEdgesMap.find k = some ids ∧ i ∈ ids) ↔
        ∃ e, g[i]? = some e ∧ (e.key1 = k ∨ e.key2 = k) := by
    intro k i
    rw [createSymbolicGraph_find]
    have hm := mem_incidentIds k g 0 i
    simp only [Nat.zero_le, true_and, Nat.sub_zero] at hm
    rw [← hm]
    by_cases h : incidentIds k g 0 = []
    · simp [h]
    · simp [h]
  refine ⟨hmem, ?_, ?_, ?_, ?_⟩
  · intro i e he
    exact ⟨(hmem e.key1 i).mpr ⟨e, he, Or.inl rfl⟩,
      (hmem e.key2 i).mpr ⟨e, he, Or.inr rfl⟩⟩
  · intro k ids hids
    rw [createSymbolicGraph_find] at hids
    by_cases h : incidentIds k g 0 = []
    · simp [h] at hids
    · simp only [h, if_false, Option.some.injEq] at hids
      subst hids
      exact ⟨h, sorted_incidentIds k g 0⟩
  · exact createSymbolicGraphFrom_nodup g 0 ⟨[], []⟩ (by simp)
  · refine ⟨_, rfl, rfl, ?_, ?_, ?_, ?_, ?_, ?_⟩ <;>
      simp [createSymbolicGraph, createSymbolicGraphFrom, KeyVectorMap.append,
        KeyVectorMap.find, keyAnchor]

end AdjacencyTheorems

section KeysAlgebra

open FactorGraphUnordered

variable {FACTOR Tol : Type}

theorem keys_mem (ops : FactorOps FACTOR Tol) (G : FactorGraphUnordered FACTOR) (k : Key) :
    k ∈ keys ops G ↔ ∃ f, some f ∈ G.factors_ ∧ k ∈ ops.keys f := by
  have := (keys_foldl_spec ops G.factors_ [] List.sorted_nil).1 k
  simpa [keys] using this

theorem keys_sorted (ops : FactorOps FACTOR Tol) (G : FactorGraphUnordered FACTOR) :
    (keys ops G).Sorted (· < ·) :=
  (keys_foldl_spec ops G.factors_ [] List.sorted_nil).2

theorem keys_eq_of_mem_iff (ops : FactorOps FACTOR Tol) (G H : FactorGraphUnordered FACTOR)
    (h : ∀ k, k ∈ keys ops G ↔ k ∈ keys ops H) : keys ops G = keys ops H := by
  have hG := keys_sorted ops G
  have hH := keys_sorted ops H
  exact List.eq_of_perm_of_sorted ((List.perm_ext_iff_of_nodup hG.nodup hH.nodup).mpr h) hG hH

theorem keys_eq_of_same_factors (ops : FactorOps FACTOR Tol)
    (G H : FactorGraphUnordered FACTOR)
    (h : ∀ f : FACTOR, some f ∈ G.factors_ ↔ some f ∈ H.factors_) :
    keys ops G = keys ops H := by
  apply keys_eq_of_mem_iff
  intro k
  rw [keys_mem, keys_mem]
  constructor
  · rintro ⟨f, hf, hk⟩
    exact ⟨f, (h f).mp hf, hk⟩
  · rintro ⟨f, hf, hk⟩
    exact ⟨f, (h f).mpr hf, hk⟩

/-- C13: `keys()` ignores slot order and null slots: a container whose slots are a
permutation of those of `G` has the same `keys()`; so has the container got by
inserting or removing a null slot at any place, and any container with the same
sequence of non-null slots; and the `keys()` of the container whose slots are
those of `G` followed by those of `H` holds exactly the keys of `G.keys()` and of
`H.keys()`. -/
theorem keys_ignores_order_and_nulls (ops : FactorOps FACTOR Tol) :
    (∀ G G' : FactorGraphUnordered FACTOR, G.factors_.Perm G'.factors_ →
      keys ops G = keys ops G') ∧
    (∀ l1 l2 : List (sharedFactor FACTOR),
      keys ops ⟨l1 ++ none :: l2⟩ = keys ops ⟨l1 ++ l2⟩) ∧
    (∀ G G' : FactorGraphUnordered FACTOR,
      G.factors_.filter Option.isSome = G'.factors_.filter Option.isSome →
      keys ops G = keys ops G') ∧
    (∀ (G H : FactorGraphUnordered FACTOR) (k : Key),
      k ∈ keys ops ⟨G.factors_ ++ H.factors_⟩ ↔ k ∈ keys ops G ∨ k ∈ keys ops H) := by
  refine ⟨?_, ?_, ?_, ?_⟩
  · intro G G' hperm
    exact keys_eq_of_same_factors ops G G' (fun f => hperm.mem_iff)
  · intro l1 l2
    apply keys_eq_of_same_factors
    intro f
    simp
  · intro G G' hfilter
    apply keys_eq_of_same_factors
    intro f
    have h1 : some f ∈ G.factors_ ↔ some f ∈ G.factors_.filter Option.isSome := by
      simp [List.mem_filter]
    have h2 : some f ∈ G'.factors_ ↔ some f ∈ G'.factors_.filter Option.isSome := by
      simp [List.mem_filter]
    rw [h1, h2, hfilter]
  · intro G H k
    simp only [keys_mem, List.mem_append]
    constructor
    · rintro ⟨f, hf | hf, hk⟩
      · exact Or.inl ⟨f, hf, hk⟩
      · exact Or.inr ⟨f, hf, hk⟩
    · rintro (⟨f, hf, hk⟩ | ⟨f, hf, hk⟩)
      · exact ⟨f, Or.inl hf, hk⟩
      · exact ⟨f, Or.inr hf, hk⟩

/-- Witness for C13: the example factors in reverse order, with a null slot in
between, have the keys of the example graph. -/
theorem keys_ignores_order_and_nulls_witness :
    keys keyedOps ⟨(exampleFactors.map some).reverse⟩ = keys keyedOps (ofFactors exampleFactors) ∧
    keys keyedOps ⟨[some ⟨[0, 1], 0⟩] ++ none :: [some ⟨[1, 2], 0⟩]⟩ =
      keys keyedOps ⟨[some ⟨[0, 1], 0⟩] ++ [some ⟨[1, 2], 0⟩]⟩ :=
  ⟨(keys_ignores_order_and_nulls keyedOps).1 ⟨(exampleFactors.map some).reverse⟩
      (ofFactors exampleFactors) (List.reverse_perm _),
    (keys_ignores_order_and_nulls keyedOps).2.1 _ _⟩

end KeysAlgebra

section EqualsAlgebra

open FactorGraphUnordered

variable {FACTOR Tol : Type}

theorem slotsAgree_self (ops : FactorOps FACTOR Tol) (tol : Tol)
    (hrefl : ∀ a, ops.equals a a tol = true) (G : FactorGraphUnordered FACTOR) (i : Nat)
    (hi : i < G.size) : SlotsAgree ops tol G G i := by
  have hg : G.factors_[i]? = some G.factors_[i] := List.getElem?_eq_getElem hi
  cases hs : G.factors_[i] with
  | none => exact Or.inl ⟨by rw [hg, hs], by rw [hg, hs]⟩
  | some a => exact Or.inr ⟨a, a, by rw [hg, hs], by rw [hg, hs], hrefl a⟩

theorem slotsAgree_symm (ops : FactorOps FACTOR Tol) (tol : Tol)
    (hsymm : ∀ a b, ops.equals a b tol = ops.equals b a tol)
    (G H : FactorGraphUnordered FACTOR) (i : Nat) (h : SlotsAgree ops tol G H i) :
    SlotsAgree ops tol H G i := by
  rcases h with ⟨h1, h2⟩ | ⟨a, b, h1, h2, hab⟩
  · exact Or.inl ⟨h2, h1⟩
  · exact Or.inr ⟨b, a, h2, h1, by rw [hsymm b a, hab]⟩

/-- C14: container equality inherits reflexivity and symmetry from the factor
predicate: when the predicate is reflexive at `tol`, `G.equals(G, tol)` is true for
every container `G`, null slots included; when it is symmetric at `tol`,
`G.equals(H, tol)` and `H.equals(G, tol)` are the same for all `G` and `H`. -/
theorem equals_refl_symm (ops : FactorOps FACTOR Tol) (tol : Tol) :
    ((∀ a, ops.equals a a tol = true) →
      ∀ G : FactorGraphUnordered FACTOR, equals ops G G tol = .ok true) ∧
    ((∀ a b, ops.equals a b tol = ops.equals b a tol) →
      ∀ G H : FactorGraphUnordered FACTOR, equals ops G H tol = equals ops H G tol) := by
  constructor
  · intro hrefl G
    obtain ⟨b, hb, hspec⟩ := equals_total ops G G tol
    have : b = true := hspec.mpr ⟨rfl, fun i hi => slotsAgree_self ops tol hrefl G i hi⟩
    rw [hb, this]
  · intro hsymm G H
    obtain ⟨b, hb, hspec⟩ := equals_total ops G H tol
    obtain ⟨b', hb', hspec'⟩ := equals_total ops H G tol
    have hiff : b = true ↔ b' = true := by
      rw [hspec, hspec']
      constructor
      · rintro ⟨hsz, hall⟩
        exact ⟨hsz.symm, fun i hi => slotsAgree_symm ops tol hsymm G H i (hall i (hsz ▸ hi))⟩
      · rintro ⟨hsz, hall⟩
        exact ⟨hsz.symm, fun i hi => slotsAgree_symm ops tol hsymm H G i (hall i (hsz ▸ hi))⟩
    have hbb : b = b' := by
      cases b <;> cases b' <;> simp_all
    rw [hb, hb', hbb]

/-- Witness for C14: the predicate comparing keys and values is reflexive and
symmetric at tolerance 0; a container with a null slot equals itself, and the two
orders of comparing it with the example graph agree. -/
theorem equals_refl_symm_witness :
    equals keyedOps ⟨[none, some ⟨[0, 1], 0⟩]⟩ ⟨[none, some ⟨[0, 1], 0⟩]⟩ 0 = .ok true ∧
    equals keyedOps ⟨[none, some ⟨[0, 1], 0⟩]⟩ (ofFactors exampleFactors) 0 =
      equals keyedOps (ofFactors exampleFactors) ⟨[none, some ⟨[0, 1], 0⟩]⟩ 0 :=
  ⟨(equals_refl_symm keyedOps 0).1 (by intro a; simp [keyedOps]) _,
    (equals_refl_symm keyedOps 0).2
      (by
        intro a b
        simp only [keyedOps, Nat.le_zero_eq, Int.natAbs_eq_zero, sub_eq_zero]
        congr 1
        exact propext ⟨fun h => ⟨h.1.symm, h.2.symm⟩, fun h => ⟨h.1.symm, h.2.symm⟩⟩)
      _ _⟩

end EqualsAlgebra

section CountAlgebra

open FactorGraphUnordered

variable {FACTOR Tol : Type}

theorem nrFactors_eq_filter (G : FactorGraphUnordered FACTOR) :
    G.nrFactors = (G.factors_.filter Option.isSome).length := by
  simp [nrFactors, nrFactors_foldl]

/-- C15: `nrFactors() <= size()`, with equality exactly when no slot is null;
`nrFactors()` is 0 exactly when every slot is null, and then `keys()` is empty. -/
theorem nrFactors_le_size (ops : FactorOps FACTOR Tol) (G : FactorGraphUnordered FACTOR) :
    G.nrFactors ≤ G.size ∧
    (G.nrFactors = G.size ↔ ∀ slot, slot ∈ G.factors_ → slot ≠ none) ∧
    (G.nrFactors = 0 ↔ ∀ slot, slot ∈ G.factors_ → slot = none) ∧
    (G.nrFactors = 0 → keys ops G = []) := by
  have hzero : G.nrFactors = 0 ↔ ∀ slot, slot ∈ G.factors_ → slot = none := by
    rw [nrFactors_eq_filter, List.length_eq_zero, List.filter_eq_nil_iff]
    constructor
    · intro h slot hs
      have := h slot hs
      cases slot with
      | none => rfl
      | some f => simp at this
    · intro h slot hs
      rw [h slot hs]
      simp
  refine ⟨?_, ?_, hzero, ?_⟩
  · rw [nrFactors_eq_filter]
    exact List.length_filter_le _ _
  · rw [nrFactors_eq_filter, size, List.filter_length_eq_length]
    constructor
    · intro h slot hs hnone
      have := h slot hs
      rw [hnone] at this
      simp at this
    · intro h slot hs
      cases slot with
      | none => exact absurd rfl (h none hs)
      | some f => rfl
  · intro h0
    have hall := hzero.mp h0
    apply List.eq_nil_iff_forall_not_mem.mpr
    intro k hk
    obtain ⟨f, hf, _⟩ := (keys_mem ops G k).mp hk
    have := hall (some f) hf
    cases this

end CountAlgebra

section TreeAlgebra

open FactorGraphUnordered

variable {FACTOR Tol : Type}

mutual
theorem Clique.numConditionals_eq (c : Clique FACTOR) :
    Clique.numConditionals c =
      (((Clique.subtree c).map Clique.conditional_).filter Option.isSome).length := by
  cases c with
  | mk cond ch =>
    rw [Clique.numConditionals, Clique.subtree, Clique.numConditionalsList_eq ch]
    cases cond with
    | none => simp [Clique.conditional_]
    | some f =>
      simp [Clique.conditional_]
      omega
theorem Clique.numConditionalsList_eq (cs : List (Clique FACTOR)) :
    Clique.numConditionalsList cs =
      (((Clique.subtreeList cs).map Clique.conditional_).filter Option.isSome).length := by
  cases cs with
  | nil => simp [Clique.numConditionalsList, Clique.subtreeList]
  | cons c cs =>
    rw [Clique.numConditionalsList, Clique.subtreeList, Clique.numConditionals_eq c,
      Clique.numConditionalsList_eq cs]
    simp
end

/-- C16: flattening a clique forest adds exactly the forest's keys and factors:
after `G.push_back_bayesTree(T)` a key is in `keys()` exactly when it was in
`G.keys()` before or is a key of the non-null conditional of some clique of `T`,
and `nrFactors()` has grown by the number of cliques of `T` whose conditional is
non-null (which is also the number of non-null conditionals in the depth-first
listing of the cliques). -/
theorem push_back_bayesTree_keys_and_nrFactors (ops : FactorOps FACTOR Tol)
    (G : FactorGraphUnordered FACTOR) (T : BayesTreeUnordered FACTOR) :
    (∀ k : Key, k ∈ keys ops (G.push_back_bayesTree T) ↔
      k ∈ keys ops G ∨
        ∃ c f, IsCliqueOf T.roots c ∧ c.conditional_ = some f ∧ k ∈ ops.keys f) ∧
    (G.push_back_bayesTree T).nrFactors = G.nrFactors + T.numConditionals ∧
    T.numConditionals = (T.cliques.filter (fun c => c.conditional_.isSome)).length := by
  have hf := push_back_bayesTree_factors G T
  have hnum : T.numConditionals =
      ((T.cliques.map Clique.conditional_).filter Option.isSome).length :=
    Clique.numConditionalsList_eq T.roots
  refine ⟨?_, ?_, ?_⟩
  · intro k
    simp only [keys_mem, hf, List.mem_append, List.mem_map]
    constructor
    · rintro ⟨f, hf1 | ⟨c, hc, hcf⟩, hk⟩
      · exact Or.inl ⟨f, hf1, hk⟩
      · exact Or.inr ⟨c, f, (Clique.mem_subtreeList_iff _ c).mp hc, hcf, hk⟩
    · rintro (⟨f, hf1, hk⟩ | ⟨c, f, hc, hcf, hk⟩)
      · exact ⟨f, Or.inl hf1, hk⟩
      · exact ⟨f, Or.inr ⟨c, (Clique.mem_subtreeList_iff _ c).mpr hc, hcf⟩, hk⟩
  · rw [nrFactors_eq_filter, nrFactors_eq_filter, hf, hnum]
    simp
  · rw [hnum, List.filter_map, List.length_map]
    rfl

/-- The example forest pushed onto a container of two slots, one of them null:
`nrFactors()` goes from 1 to 5, the forest having four non-null conditionals. -/
theorem push_back_bayesTree_nrFactors_example :
    (push_back_bayesTree ⟨[some 0, none]⟩ exampleForest).nrFactors = 5 ∧
    exampleForest.numConditionals = 4 ∧ exampleForest.numCliques = 5 := by
  decide

end TreeAlgebra

end gtsam
